import Mathlib

/-!
Verification of the Hex game engine in src/Zjazd1/game.py.

The board is a list of rows of characters, with cells in {'.', 'X', 'O'}
exactly as in the Python source.  The module-level constant N of the source
always equals the board's side length, so the embedding reads the size off
the board itself.  The two graph searches (the DFS of HexGame.check_win and
the BFS of shortest_path_length) are while-loops in Python; they are embedded
as fuel-indexed structural recursions returning Option, together with a proof
that the chosen fuel (a constant multiple of the cell count) is never
exhausted, which is exactly the termination argument of the source.
-/

/-- Board representation: a list of rows of characters, as in the source
(list of lists of the one-character strings '.', 'X', 'O'). -/
abbrev Board := List (List Char)

/-- Cell access board[x][y] of the source, totalized with the out-of-range
default '?' (the source never indexes out of range: every access is guarded). -/
def cellAt (board : Board) (x y : Nat) : Char :=
  (board.getD x []).getD y '?'

/-- Write board[row][col] = c, as performed by make_move and unmake_move. -/
def setCell (board : Board) (row col : Nat) (c : Char) : Board :=
  board.set row ((board.getD row []).set col c)

/-- The six hex directions, in the order they appear in the source
(both in shortest_path_length and in get_neighbors). -/
def dirs : List (Int × Int) := [(-1,0), (-1,1), (0,-1), (0,1), (1,-1), (1,0)]

/-- HexGame.get_neighbors: the in-range hex neighbors of (x, y) on an n-sized
board, in dirs order. -/
def neighbors (n x y : Nat) : List (Nat × Nat) :=
  dirs.filterMap (fun d =>
    let nx : Int := (x : Int) + d.1
    let ny : Int := (y : Int) + d.2
    if 0 ≤ nx ∧ nx < (n : Int) ∧ 0 ≤ ny ∧ ny < (n : Int) then
      some (nx.toNat, ny.toNat)
    else none)

/-- Seed cells of shortest_path_length: (i, 0, 0) for 'X' rows with an 'X'
in column 0, else (0, j, 0) for columns with an 'O' in row 0. -/
def bfsSeeds (board : Board) (player : Char) : List (Nat × Nat × Nat) :=
  if player = 'X' then
    (List.range board.length).filterMap
      (fun i => if cellAt board i 0 = 'X' then some (i, 0, 0) else none)
  else
    (List.range board.length).filterMap
      (fun j => if cellAt board 0 j = 'O' then some (0, j, 0) else none)

/-- Neighbor enqueueing step of the BFS loop in shortest_path_length: for each
direction, the guarded push of (nx, ny, dist + 1) when the target is in range,
owned by the player and not yet visited. -/
def bfsPush (board : Board) (player : Char) (x y dist : Nat)
    (visited : List (Nat × Nat)) : List (Nat × Nat × Nat) :=
  dirs.filterMap (fun d =>
    let nx : Int := (x : Int) + d.1
    let ny : Int := (y : Int) + d.2
    if 0 ≤ nx ∧ nx < (board.length : Int) ∧ 0 ≤ ny ∧ ny < (board.length : Int)
        ∧ cellAt board nx.toNat ny.toNat = player
        ∧ (nx.toNat, ny.toNat) ∉ visited then
      some (nx.toNat, ny.toNat, dist + 1)
    else none)

/-- The while-loop of shortest_path_length, fuel-indexed.  Queue entries are
(row, column, distance); popping is from the left (deque.popleft) and pushes
append on the right.  Returns none only on fuel exhaustion, which the
termination theorem rules out for the fuel used by shortest_path_length. -/
def bfsAux (board : Board) (player : Char) :
    Nat → List (Nat × Nat × Nat) → List (Nat × Nat) → Option Nat
  | 0, _, _ => none
  | _ + 1, [], _ => some 99
  | fuel + 1, e :: rest, visited =>
    if (e.1, e.2.1) ∈ visited then bfsAux board player fuel rest visited
    else if player = 'X' ∧ e.2.1 = board.length - 1 then some e.2.2
    else if player = 'O' ∧ e.1 = board.length - 1 then some e.2.2
    else
      bfsAux board player fuel
        (rest ++ bfsPush board player e.1 e.2.1 e.2.2 ((e.1, e.2.1) :: visited))
        ((e.1, e.2.1) :: visited)

/-- Fuel sufficient for the BFS/DFS loops: each popped element consumes one
unit, and at most 7 per cell plus the seeds are ever enqueued. -/
def searchFuel (board : Board) : Nat :=
  7 * board.length * board.length + board.length + 1

/-- shortest_path_length(board, player) of the source: BFS distance from the
player's start edge to its target edge through the player's own stones,
99 when no such path exists. -/
def shortest_path_length (board : Board) (player : Char) : Nat :=
  (bfsAux board player (searchFuel board) (bfsSeeds board player) []).getD 99

/-- Seed cells of HexGame.check_win, pushed in index order (the Python list is
used as a stack popping from the right, so the embedding reverses them before
running the head-popping loop). -/
def dfsSeeds (board : Board) (player : Char) : List (Nat × Nat) :=
  if player = 'X' then
    (List.range board.length).filterMap
      (fun i => if cellAt board i 0 = 'X' then some (i, 0) else none)
  else
    (List.range board.length).filterMap
      (fun j => if cellAt board 0 j = 'O' then some (0, j) else none)

/-- Neighbor push of the DFS loop in check_win: get_neighbors filtered to
cells owned by the player and not yet visited. -/
def dfsPush (board : Board) (player : Char) (x y : Nat)
    (visited : List (Nat × Nat)) : List (Nat × Nat) :=
  (neighbors board.length x y).filter
    (fun c => decide (cellAt board c.1 c.2 = player ∧ c ∉ visited))

/-- The while-loop of HexGame.check_win, fuel-indexed.  The Python stack pops
from the right, so the embedding keeps the stack head-first and pushes each
batch reversed. -/
def dfsAux (board : Board) (player : Char) :
    Nat → List (Nat × Nat) → List (Nat × Nat) → Option Bool
  | 0, _, _ => none
  | _ + 1, [], _ => some false
  | fuel + 1, c :: rest, visited =>
    if c ∈ visited then dfsAux board player fuel rest visited
    else if player = 'X' ∧ c.2 = board.length - 1 then some true
    else if player = 'O' ∧ c.1 = board.length - 1 then some true
    else
      dfsAux board player fuel
        ((dfsPush board player c.1 c.2 (c :: visited)).reverse ++ rest)
        (c :: visited)

/-- HexGame.check_win(player): DFS from the player's start edge through the
player's stones, true when the target edge is reached. -/
def check_win (board : Board) (player : Char) : Bool :=
  (dfsAux board player (searchFuel board) (dfsSeeds board player).reverse []).getD false

/-- HexGame.player_symbol: 'X' for player 1, 'O' otherwise. -/
def player_symbol (current_player : Nat) : Char :=
  if current_player = 1 then 'X' else 'O'

/-- HexGame.win: whether the current player has connected their edges. -/
def win (board : Board) (current_player : Nat) : Bool :=
  check_win board (player_symbol current_player)

/-- HexGame.is_over: the current player has won, or no cell is empty. -/
def is_over (board : Board) (current_player : Nat) : Bool :=
  win board current_player || board.all (fun row => row.all (fun cell => cell != '.'))

/-- HexGame.scoring: opponent's BFS distance minus the mover's BFS distance. -/
def scoring (board : Board) (current_player : Nat) : Int :=
  let me := player_symbol current_player
  let opp := if me = 'X' then 'O' else 'X'
  (shortest_path_length board opp : Int) - (shortest_path_length board me : Int)

/-- Move encoding of possible_moves: column letter (ascii_uppercase[c]) then
the 1-based row number. -/
def encodeMove (r c : Nat) : String :=
  String.mk [Char.ofNat (65 + c)] ++ toString (r + 1)

/-- HexGame.possible_moves: the encoded coordinates of all empty cells, rows
ascending and columns ascending within a row. -/
def possible_moves (board : Board) : List String :=
  (List.range board.length).flatMap (fun r =>
    (List.range board.length).flatMap (fun c =>
      if cellAt board r c = '.' then [encodeMove r c] else []))

/-- HexGame.make_move with the textual move already parsed to (row, col):
writes the current player's symbol into the target cell, unconditionally. -/
def make_move (board : Board) (current_player : Nat) (row col : Nat) : Board :=
  setCell board row col (player_symbol current_player)

/-- HexGame.unmake_move with the move parsed to (row, col): writes '.' back. -/
def unmake_move (board : Board) (row col : Nat) : Board :=
  setCell board row col '.'

/-- Game state: the board plus the stored current_player field (1 or 2). -/
structure HexGame where
  board : Board
  current_player : Nat

/-- HexGame.__init__: an n-by-n all-'.' board with current_player = 1. -/
def initGame (n : Nat) : HexGame :=
  ⟨List.replicate n (List.replicate n '.'), 1⟩

/-- Modelled from the spec: one full move of the driving loop, which is not
part of this repository (the easyAI framework's play_move).  Per the spec,
applying a move sets the cell to the current player's symbol and then flips
the current player. -/
def play_move (g : HexGame) (m : Nat × Nat) : HexGame :=
  ⟨make_move g.board g.current_player m.1 m.2,
   if g.current_player = 1 then 2 else 1⟩

/-- Sequence of full moves applied from a state. -/
def playMovesFrom (g : HexGame) : List (Nat × Nat) → HexGame
  | [] => g
  | m :: ms => playMovesFrom (play_move g m) ms

/-- Legality of a move sequence: every move targets a cell that is empty at
the time it is played (these are exactly the sequences the driving loop can
produce, since both players choose from possible_moves). -/
def legalSeqFrom (g : HexGame) : List (Nat × Nat) → Bool
  | [] => true
  | m :: ms => (cellAt g.board m.1 m.2 == '.') && legalSeqFrom (play_move g m) ms

/-- Number of stones (non-'.' cells) on the board. -/
def stones (board : Board) : Nat :=
  (board.map (fun row => row.countP (fun cell => cell != '.'))).sum

example : cellAt (initGame 5).board 2 3 = '.' := by decide
example : shortest_path_length (initGame 5).board 'X' = 99 := by decide
example : check_win (initGame 5).board 'X' = false := by decide
example :
    check_win (playMovesFrom (initGame 5)
      [(0,0),(1,0),(0,1),(1,1),(0,2),(1,2),(0,3),(1,3),(0,4)]).board 'X' = true := by
  decide
example :
    shortest_path_length (playMovesFrom (initGame 5)
      [(0,0),(1,0),(0,1),(1,1),(0,2),(1,2),(0,3),(1,3),(0,4)]).board 'X' = 4 := by
  decide
example : possible_moves (initGame 2).board = ["A1", "B1", "A2", "B2"] := by decide
example : scoring (initGame 2).board 1 = 0 := by decide

/-! Helper lemmas about getD and set. -/

theorem getD_set_self {α : Type} (l : List α) (i : Nat) (a d : α) (h : i < l.length) :
    (l.set i a).getD i d = a := by
  induction l generalizing i with
  | nil => simp at h
  | cons x t ih =>
    cases i with
    | zero => rfl
    | succ n => simpa using ih n (by simpa using h)

theorem getD_set_ne {α : Type} (l : List α) {i j : Nat} (a : α) (d : α) (h : i ≠ j) :
    (l.set i a).getD j d = l.getD j d := by
  induction l generalizing i j with
  | nil => simp
  | cons x t ih =>
    cases i with
    | zero =>
      cases j with
      | zero => exact absurd rfl h
      | succ m => simp
    | succ n =>
      cases j with
      | zero => simp
      | succ m => simpa using ih (fun hnm => h (by simp [hnm]))

theorem set_getD_self {α : Type} (l : List α) (i : Nat) (d : α) (h : i < l.length) :
    l.set i (l.getD i d) = l := by
  induction l generalizing i with
  | nil => simp at h
  | cons x t ih =>
    cases i with
    | zero => rfl
    | succ n => simpa using ih n (by simpa using h)

theorem cellAt_bounds {b : Board} {r c : Nat} (h : cellAt b r c ≠ '?') :
    r < b.length ∧ c < (b.getD r []).length := by
  constructor
  · by_contra hr
    have h0 : b.getD r [] = [] := List.getD_eq_default _ _ (Nat.le_of_not_lt hr)
    have : cellAt b r c = '?' := by unfold cellAt; rw [h0]; simp
    exact h this
  · by_contra hc
    have : cellAt b r c = '?' := List.getD_eq_default _ _ (Nat.le_of_not_lt hc)
    exact h this

/-- Claim C4: the evaluation function returns the opponent's completion
distance minus the mover's completion distance, where the mover is the
player to move and the opponent is the other player. -/
theorem scoring_eq_opp_sub_self (board : Board) (cp : Nat) :
    scoring board cp =
      (shortest_path_length board (player_symbol (if cp = 1 then 2 else 1)) : Int)
        - (shortest_path_length board (player_symbol cp) : Int) := by
  by_cases h : cp = 1 <;> simp [scoring, player_symbol, h]

/-- Board with an occupied cell, used to refute the stated claim C2. -/
def occupiedBoard : Board :=
  [['O', '.', '.', '.', '.'],
   ['.', '.', '.', '.', '.'],
   ['.', '.', '.', '.', '.'],
   ['.', '.', '.', '.', '.'],
   ['.', '.', '.', '.', '.']]

/-- Counterexample to claim C2 as stated: the target cell (0,0) is not empty,
yet make_move does not fail and does not leave the board unchanged; it
overwrites the cell with the mover's symbol. -/
theorem make_move_overwrites_occupied :
    cellAt occupiedBoard 0 0 ≠ '.' ∧
    make_move occupiedBoard 1 0 0 ≠ occupiedBoard ∧
    cellAt (make_move occupiedBoard 1 0 0) 0 0 = 'X' := by
  decide

/-- Claim C2 as amended: make_move performs no legality check and cannot fail;
for any in-range target cell, empty or not, it writes the current player's
symbol into that cell and changes no other cell. -/
theorem make_move_sets_cell (b : Board) (cp r c : Nat)
    (hr : r < b.length) (hc : c < (b.getD r []).length) :
    cellAt (make_move b cp r c) r c = player_symbol cp ∧
    ∀ r' c', ¬(r' = r ∧ c' = c) →
      cellAt (make_move b cp r c) r' c' = cellAt b r' c' := by
  constructor
  · unfold make_move setCell cellAt
    rw [getD_set_self _ _ _ _ hr]
    exact getD_set_self _ _ _ _ hc
  · intro r' c' hne
    unfold make_move setCell cellAt
    by_cases hr' : r' = r
    · subst hr'
      have hc' : c' ≠ c := fun hcc => hne ⟨rfl, hcc⟩
      rw [getD_set_self _ _ _ _ hr]
      exact getD_set_ne _ _ _ (fun hcc => hc' hcc.symm)
    · rw [getD_set_ne _ _ _ (fun hrr => hr' hrr.symm)]

/-- Witness for make_move_sets_cell at a concrete input. -/
theorem make_move_sets_cell_witness :
    cellAt (make_move occupiedBoard 1 0 0) 0 0 = player_symbol 1 ∧
    ∀ r' c', ¬(r' = 0 ∧ c' = 0) →
      cellAt (make_move occupiedBoard 1 0 0) r' c' = cellAt occupiedBoard r' c' :=
  make_move_sets_cell occupiedBoard 1 0 0 (by decide) (by decide)

/-- Claim C3: applying a move on an empty cell and then undoing that same move
restores the board exactly. -/
theorem make_unmake_roundtrip (b : Board) (cp r c : Nat)
    (h : cellAt b r c = '.') :
    unmake_move (make_move b cp r c) r c = b := by
  obtain ⟨hr, hc⟩ := cellAt_bounds (b := b) (r := r) (c := c) (by rw [h]; decide)
  unfold unmake_move make_move setCell
  rw [getD_set_self _ _ _ _ hr, List.set_set, List.set_set]
  have hdot : '.' = (b.getD r []).getD c '?' := h.symm
  rw [hdot, set_getD_self _ _ _ hc, set_getD_self _ _ _ hr]

/-- Witness for make_unmake_roundtrip at a concrete input. -/
theorem make_unmake_roundtrip_witness :
    unmake_move (make_move occupiedBoard 2 1 3) 1 3 = occupiedBoard :=
  make_unmake_roundtrip occupiedBoard 2 1 3 (by decide)

/-- Grid coordinates in row-major order (row ascending, then column). -/
def rowMajorCells (n : Nat) : List (Nat × Nat) :=
  (List.range n).flatMap (fun r => (List.range n).map (fun c => (r, c)))

/-- Spec-side definition, following the words of the specification: emptyCells
enumerates all cells equal to Empty, in row-major order. -/
def emptyCellsSpec (board : Board) : List (Nat × Nat) :=
  (rowMajorCells board.length).filter (fun p => decide (cellAt board p.1 p.2 = '.'))

theorem flatMap_if_eq_filter_map_inner (board : Board) (r : Nat) (l : List Nat) :
    l.flatMap (fun c => if cellAt board r c = '.' then [encodeMove r c] else [])
      = ((l.map (fun c => (r, c))).filter
          (fun p => decide (cellAt board p.1 p.2 = '.'))).map
        (fun p => encodeMove p.1 p.2) := by
  induction l with
  | nil => rfl
  | cons c t ih =>
    by_cases h : cellAt board r c = '.' <;>
      simp [List.flatMap_cons, List.filter_cons, h, ih]

theorem flatMap_if_eq_filter_map_outer (board : Board) (n : Nat) (L : List Nat) :
    L.flatMap (fun r => (List.range n).flatMap
        (fun c => if cellAt board r c = '.' then [encodeMove r c] else []))
      = ((L.flatMap (fun r => (List.range n).map (fun c => (r, c)))).filter
          (fun p => decide (cellAt board p.1 p.2 = '.'))).map
        (fun p => encodeMove p.1 p.2) := by
  induction L with
  | nil => rfl
  | cons r t ih =>
    rw [List.flatMap_cons, flatMap_if_eq_filter_map_inner, ih, List.flatMap_cons,
      List.filter_append, List.map_append]

/-- Claim C5: possible_moves is exactly the row-major enumeration of the empty
cells (encoded as letter-number moves), and it is empty exactly when no grid
cell is empty, i.e. when the board is full. -/
theorem possible_moves_row_major (board : Board) :
    possible_moves board
        = (emptyCellsSpec board).map (fun p => encodeMove p.1 p.2) ∧
    (possible_moves board = []
        ↔ ∀ p ∈ rowMajorCells board.length, cellAt board p.1 p.2 ≠ '.') := by
  have h : possible_moves board
      = (emptyCellsSpec board).map (fun p => encodeMove p.1 p.2) :=
    flatMap_if_eq_filter_map_outer board board.length (List.range board.length)
  refine ⟨h, ?_⟩
  rw [h]
  unfold emptyCellsSpec
  constructor
  · intro hnil p hp
    have := List.map_eq_nil_iff.mp hnil
    intro hdot
    have : p ∈ ([] : List (Nat × Nat)) := by
      rw [← this]
      exact List.mem_filter.mpr ⟨hp, by simpa using hdot⟩
    simp at this
  · intro hall
    have : (rowMajorCells board.length).filter
        (fun p => decide (cellAt board p.1 p.2 = '.')) = [] := by
      apply List.filter_eq_nil_iff.mpr
      intro p hp
      simpa using hall p hp
    rw [this]
    rfl

theorem countP_set_stone (row : List Char) (c : Nat) (v : Char)
    (h : row.getD c '?' = '.') (hv : v ≠ '.') :
    (row.set c v).countP (fun cell => cell != '.')
      = row.countP (fun cell => cell != '.') + 1 := by
  induction row generalizing c with
  | nil => simp at h
  | cons x t ih =>
    cases c with
    | zero =>
      have hx : x = '.' := h
      simp [List.countP_cons, hx, hv]
    | succ n =>
      have ht : t.getD n '?' = '.' := h
      simp only [List.set_cons_succ, List.countP_cons, ih n ht]
      omega

theorem stones_setCell (b : Board) (r c : Nat) (v : Char)
    (h : cellAt b r c = '.') (hv : v ≠ '.') :
    stones (setCell b r c v) = stones b + 1 := by
  induction b generalizing r with
  | nil =>
    exfalso
    have : cellAt ([] : Board) r c = '?' := by unfold cellAt; simp
    rw [h] at this
    exact absurd this (by decide)
  | cons row rows ih =>
    cases r with
    | zero =>
      have hrow : row.getD c '?' = '.' := h
      simp only [setCell, List.getD_cons_zero, List.set_cons_zero, stones,
        List.map_cons, List.sum_cons, countP_set_stone row c v hrow hv]
      omega
    | succ n =>
      have h' : cellAt rows n c = '.' := h
      have := ih n h'
      simp only [setCell, List.getD_cons_succ, List.set_cons_succ, stones,
        List.map_cons, List.sum_cons] at this ⊢
      omega

theorem playMovesFrom_parity (ms : List (Nat × Nat)) :
    ∀ g : HexGame, (g.current_player = 1 ∨ g.current_player = 2) →
    legalSeqFrom g ms = true →
    ((playMovesFrom g ms).current_player
        = if ms.length % 2 = 0 then g.current_player
          else (if g.current_player = 1 then 2 else 1)) ∧
    stones (playMovesFrom g ms).board = stones g.board + ms.length := by
  induction ms with
  | nil => intro g _ _; simp [playMovesFrom]
  | cons m t ih =>
    intro g hcp hlegal
    have hl : cellAt g.board m.1 m.2 = '.' ∧ legalSeqFrom (play_move g m) t = true := by
      have := hlegal
      unfold legalSeqFrom at this
      simp only [Bool.and_eq_true, beq_iff_eq] at this
      exact this
    have hcp' : (play_move g m).current_player = 1 ∨ (play_move g m).current_player = 2 := by
      rcases hcp with h1 | h2
      · right; simp [play_move, h1]
      · left; simp [play_move, h2]
    obtain ⟨hp, hs⟩ := ih (play_move g m) hcp' hl.2
    have hstone : stones (play_move g m).board = stones g.board + 1 := by
      have hsym : player_symbol g.current_player ≠ '.' := by
        unfold player_symbol
        by_cases h : g.current_player = 1 <;> simp [h]
      exact stones_setCell g.board m.1 m.2 _ hl.1 hsym
    constructor
    · show (playMovesFrom (play_move g m) t).current_player = _
      rw [hp, List.length_cons]
      by_cases he : t.length % 2 = 0
      · have he1 : (t.length + 1) % 2 ≠ 0 := by omega
        rcases hcp with h1 | h2
        · have hpm : (play_move g m).current_player = 2 := by simp [play_move, h1]
          rw [hpm, h1]
          simp [he, he1]
        · have hpm : (play_move g m).current_player = 1 := by simp [play_move, h2]
          rw [hpm, h2]
          simp [he, he1]
      · have he1 : (t.length + 1) % 2 = 0 := by omega
        rcases hcp with h1 | h2
        · have hpm : (play_move g m).current_player = 2 := by simp [play_move, h1]
          rw [hpm, h1]
          simp [he, he1]
        · have hpm : (play_move g m).current_player = 1 := by simp [play_move, h2]
          rw [hpm, h2]
          simp [he, he1]
    · show stones (playMovesFrom (play_move g m) t).board = _
      rw [hs, hstone, List.length_cons]
      omega

/-- Claim C6: along any legal move sequence from the initial game, the active
player is player 1 exactly when the number of applied moves is even and
player 2 when it is odd, and the number of stones on the board equals the
number of applied moves (the turn derivation never desynchronizes from the
board). -/
theorem current_player_parity (ms : List (Nat × Nat))
    (h : legalSeqFrom (initGame 5) ms = true) :
    (playMovesFrom (initGame 5) ms).current_player
        = (if ms.length % 2 = 0 then 1 else 2) ∧
    stones (playMovesFrom (initGame 5) ms).board = ms.length := by
  have hmain := playMovesFrom_parity ms (initGame 5) (Or.inl rfl) h
  have h0 : stones (initGame 5).board = 0 := by decide
  have h1 : (initGame 5).current_player = 1 := rfl
  rw [h0, h1] at hmain
  simpa using hmain

/-- Witness for current_player_parity at a concrete legal sequence. -/
theorem current_player_parity_witness :
    legalSeqFrom (initGame 5) [(0,0),(1,1)] = true ∧
    ((playMovesFrom (initGame 5) [(0,0),(1,1)]).current_player
        = (if ([(0,0),(1,1)] : List (Nat × Nat)).length % 2 = 0 then 1 else 2) ∧
      stones (playMovesFrom (initGame 5) [(0,0),(1,1)]).board
        = ([(0,0),(1,1)] : List (Nat × Nat)).length) :=
  ⟨by decide, current_player_parity [(0,0),(1,1)] (by decide)⟩

/-- Move sequence realizing a just-won state: players alternate legally and
player 1 ('X') completes a left-to-right connection along row 0 with the
ninth move, while player 2 ('O') has four stones in row 1. -/
def winningSeq : List (Nat × Nat) :=
  [(0,0),(1,0),(0,1),(1,1),(0,2),(1,2),(0,3),(1,3),(0,4)]

/-- Claim C1 evaluated at its failing input: after the legal sequence
winningSeq, the most recent mover ('X', since the stored current player is 2)
has connected its edges and the board is not full, so the claim requires
isTerminal to be true; the code's is_over nevertheless returns false, because
it checks the connection of the player to move instead of the most recent
mover. -/
theorem is_over_misses_win :
    legalSeqFrom (initGame 5) winningSeq = true ∧
    (playMovesFrom (initGame 5) winningSeq).current_player = 2 ∧
    check_win (playMovesFrom (initGame 5) winningSeq).board 'X' = true ∧
    (playMovesFrom (initGame 5) winningSeq).board.all
      (fun row => row.all (fun cell => cell != '.')) = false ∧
    is_over (playMovesFrom (initGame 5) winningSeq).board
      (playMovesFrom (initGame 5) winningSeq).current_player = false := by
  decide

/-- All-empty n-by-n board. -/
def emptyBoard (n : Nat) : Board :=
  List.replicate n (List.replicate n '.')

theorem getD_replicate {α : Type} (a d : α) (n i : Nat) :
    (List.replicate n a).getD i d = if i < n then a else d := by
  induction n generalizing i with
  | zero => simp
  | succ m ih =>
    cases i with
    | zero => simp
    | succ k =>
      rw [List.replicate_succ, List.getD_cons_succ, ih k]
      by_cases h : k < m <;> simp [h, Nat.succ_lt_succ_iff]

theorem cellAt_emptyBoard (n x y : Nat) :
    cellAt (emptyBoard n) x y = if x < n ∧ y < n then '.' else '?' := by
  unfold cellAt emptyBoard
  rw [getD_replicate]
  by_cases hx : x < n
  · rw [if_pos hx, getD_replicate]
    by_cases hy : y < n
    · simp [hx, hy]
    · simp [hx, hy]
  · rw [if_neg hx]
    simp [hx]

theorem cellAt_emptyBoard_ne (n x y : Nat) (ch : Char) (h : ch ≠ '.') (h2 : ch ≠ '?') :
    cellAt (emptyBoard n) x y ≠ ch := by
  rw [cellAt_emptyBoard]
  by_cases h0 : x < n ∧ y < n <;> simp [h0, Ne.symm h, Ne.symm h2]

theorem bfsSeeds_emptyBoard (n : Nat) (p : Char) : bfsSeeds (emptyBoard n) p = [] := by
  unfold bfsSeeds
  by_cases hp : p = 'X'
  · rw [if_pos hp]
    apply List.filterMap_eq_nil_iff.mpr
    intro i _
    simp [cellAt_emptyBoard_ne n i 0 'X' (by decide) (by decide)]
  · rw [if_neg hp]
    apply List.filterMap_eq_nil_iff.mpr
    intro j _
    simp [cellAt_emptyBoard_ne n 0 j 'O' (by decide) (by decide)]

theorem dfsSeeds_emptyBoard (n : Nat) (p : Char) : dfsSeeds (emptyBoard n) p = [] := by
  unfold dfsSeeds
  by_cases hp : p = 'X'
  · rw [if_pos hp]
    apply List.filterMap_eq_nil_iff.mpr
    intro i _
    simp [cellAt_emptyBoard_ne n i 0 'X' (by decide) (by decide)]
  · rw [if_neg hp]
    apply List.filterMap_eq_nil_iff.mpr
    intro j _
    simp [cellAt_emptyBoard_ne n 0 j 'O' (by decide) (by decide)]

/-- Claim C7: on an all-empty board of any size, neither player is connected
and both completion distances are the sentinel 99, with no error even though
the seed set is empty. -/
theorem empty_board_no_connection (n : Nat) :
    check_win (emptyBoard n) 'X' = false ∧
    check_win (emptyBoard n) 'O' = false ∧
    shortest_path_length (emptyBoard n) 'X' = 99 ∧
    shortest_path_length (emptyBoard n) 'O' = 99 := by
  have hfuel : ∃ k, searchFuel (emptyBoard n) = k + 1 :=
    ⟨7 * (emptyBoard n).length * (emptyBoard n).length + (emptyBoard n).length, rfl⟩
  obtain ⟨k, hk⟩ := hfuel
  refine ⟨?_, ?_, ?_, ?_⟩ <;>
    simp [check_win, shortest_path_length, bfsSeeds_emptyBoard, dfsSeeds_emptyBoard,
      hk, dfsAux, bfsAux]

/-! Termination of the two search loops: the visited set ensures each cell is
processed at most once, so the fuel searchFuel is never exhausted. -/

theorem mem_neighbors_lt {n x y : Nat} {c : Nat × Nat} (h : c ∈ neighbors n x y) :
    c.1 < n ∧ c.2 < n := by
  unfold neighbors at h
  obtain ⟨d, _, hd⟩ := List.mem_filterMap.mp h
  simp only at hd
  split at hd
  · rename_i hcond
    obtain ⟨h1, h2, h3, h4⟩ := hcond
    cases Option.some.inj hd
    constructor <;> simp only <;> omega
  · exact absurd hd (by simp)

theorem mem_dfsPush {board : Board} {p : Char} {x y : Nat} {v : List (Nat × Nat)}
    {c : Nat × Nat} (h : c ∈ dfsPush board p x y v) :
    c ∈ neighbors board.length x y ∧ cellAt board c.1 c.2 = p ∧ c ∉ v := by
  unfold dfsPush at h
  have := List.mem_filter.mp h
  refine ⟨this.1, ?_, ?_⟩
  · have := of_decide_eq_true this.2
    exact this.1
  · have := of_decide_eq_true this.2
    exact this.2

theorem mem_bfsPush {board : Board} {p : Char} {x y dist : Nat}
    {v : List (Nat × Nat)} {e : Nat × Nat × Nat} (h : e ∈ bfsPush board p x y dist v) :
    (e.1, e.2.1) ∈ neighbors board.length x y ∧ cellAt board e.1 e.2.1 = p
      ∧ (e.1, e.2.1) ∉ v ∧ e.2.2 = dist + 1 := by
  unfold bfsPush at h
  obtain ⟨d, hdm, hd⟩ := List.mem_filterMap.mp h
  simp only at hd
  split at hd
  · rename_i hcond
    obtain ⟨h1, h2, h3, h4, h5, h6⟩ := hcond
    cases Option.some.inj hd
    refine ⟨?_, h5, h6, rfl⟩
    unfold neighbors
    apply List.mem_filterMap.mpr
    exact ⟨d, hdm, by simp only; rw [if_pos ⟨h1, h2, h3, h4⟩]⟩
  · exact absurd hd (by simp)

theorem dfsPush_length_le (board : Board) (p : Char) (x y : Nat)
    (v : List (Nat × Nat)) : (dfsPush board p x y v).length ≤ 6 := by
  unfold dfsPush
  calc ((neighbors board.length x y).filter _).length
      ≤ (neighbors board.length x y).length := List.length_filter_le _ _
    _ ≤ dirs.length := List.length_filterMap_le _ _
    _ = 6 := rfl

theorem bfsPush_length_le (board : Board) (p : Char) (x y dist : Nat)
    (v : List (Nat × Nat)) : (bfsPush board p x y dist v).length ≤ 6 := by
  unfold bfsPush
  calc (dirs.filterMap _).length ≤ dirs.length := List.length_filterMap_le _ _
    _ = 6 := rfl

/-- Number of grid cells not yet visited. -/
def unvisitedCount (n : Nat) (visited : List (Nat × Nat)) : Nat :=
  ((rowMajorCells n).filter (fun c => decide (c ∉ visited))).length

theorem mem_rowMajorCells {n : Nat} {c : Nat × Nat} :
    c ∈ rowMajorCells n ↔ c.1 < n ∧ c.2 < n := by
  unfold rowMajorCells
  constructor
  · intro h
    obtain ⟨r, hr, hmem⟩ := List.mem_flatMap.mp h
    obtain ⟨cc, hcc, heq⟩ := List.mem_map.mp hmem
    cases heq
    exact ⟨List.mem_range.mp hr, List.mem_range.mp hcc⟩
  · intro ⟨h1, h2⟩
    apply List.mem_flatMap.mpr
    refine ⟨c.1, List.mem_range.mpr h1, ?_⟩
    apply List.mem_map.mpr
    exact ⟨c.2, List.mem_range.mpr h2, rfl⟩

theorem filter_notmem_cons_succ_le (l : List (Nat × Nat)) (a : Nat × Nat)
    (v : List (Nat × Nat)) (hal : a ∈ l) (hav : a ∉ v) :
    (l.filter (fun x => decide (x ∉ a :: v))).length + 1
      ≤ (l.filter (fun x => decide (x ∉ v))).length := by
  induction l with
  | nil => simp at hal
  | cons b t ih =>
    by_cases hb : b = a
    · subst hb
      have hmono : (t.filter (fun x => decide (x ∉ b :: v))).length
          ≤ (t.filter (fun x => decide (x ∉ v))).length := by
        apply List.Sublist.length_le
        apply List.monotone_filter_right
        intro x hx
        have hx' := of_decide_eq_true hx
        apply decide_eq_true
        intro hxv
        exact hx' (List.mem_cons_of_mem _ hxv)
      have h1 : (decide (b ∉ b :: v)) = false := by simp
      have h2 : (decide (b ∉ v)) = true := decide_eq_true hav
      rw [List.filter_cons_of_neg (p := fun x => decide (x ∉ b :: v)) (by simp [h1]),
        List.filter_cons_of_pos (p := fun x => decide (x ∉ v)) h2]
      simp only [List.length_cons]
      omega
    · have hat : a ∈ t := by
        rcases List.mem_cons.mp hal with h1 | h2
        · exact absurd h1.symm hb
        · exact h2
      have ih' := ih hat
      by_cases hbv : b ∈ v
      · have h1 : (decide (b ∉ a :: v)) = false := by
          simp [List.mem_cons_of_mem _ hbv]
        have h2 : (decide (b ∉ v)) = false := by simp [hbv]
        rw [List.filter_cons, List.filter_cons, h1, h2]
        exact ih'
      · have h1 : (decide (b ∉ a :: v)) = true := by
          apply decide_eq_true
          intro hmem
          rcases List.mem_cons.mp hmem with h | h
          · exact hb h
          · exact hbv h
        have h2 : (decide (b ∉ v)) = true := decide_eq_true hbv
        rw [List.filter_cons_of_pos (p := fun x => decide (x ∉ a :: v)) h1,
          List.filter_cons_of_pos (p := fun x => decide (x ∉ v)) h2]
        simp only [List.length_cons]
        omega

theorem unvisited_cons_succ_le {n : Nat} {c : Nat × Nat} {visited : List (Nat × Nat)}
    (hc : c.1 < n ∧ c.2 < n) (hnv : c ∉ visited) :
    unvisitedCount n (c :: visited) + 1 ≤ unvisitedCount n visited := by
  unfold unvisitedCount
  exact filter_notmem_cons_succ_le (rowMajorCells n) c visited
    (mem_rowMajorCells.mpr hc) hnv

theorem dfsAux_isSome (board : Board) (p : Char) :
    ∀ (fuel : Nat) (stack visited : List (Nat × Nat)),
    (∀ c ∈ stack, c.1 < board.length ∧ c.2 < board.length) →
    7 * unvisitedCount board.length visited + stack.length < fuel →
    (dfsAux board p fuel stack visited).isSome = true := by
  intro fuel
  induction fuel with
  | zero => intro stack visited _ hm; omega
  | succ f ih =>
    intro stack visited hq hm
    cases stack with
    | nil => simp [dfsAux]
    | cons c rest =>
      simp only [dfsAux]
      by_cases hv : c ∈ visited
      · rw [if_pos hv]
        apply ih rest visited (fun e he => hq e (List.mem_cons_of_mem _ he))
        simp only [List.length_cons] at hm
        omega
      · rw [if_neg hv]
        by_cases h1 : p = 'X' ∧ c.2 = board.length - 1
        · rw [if_pos h1]; rfl
        · rw [if_neg h1]
          by_cases h2 : p = 'O' ∧ c.1 = board.length - 1
          · rw [if_pos h2]; rfl
          · rw [if_neg h2]
            apply ih
            · intro e he
              rcases List.mem_append.mp he with h | h
              · have := mem_dfsPush (List.mem_reverse.mp h)
                exact mem_neighbors_lt this.1
              · exact hq e (List.mem_cons_of_mem _ h)
            · have hu := unvisited_cons_succ_le (hq c (List.mem_cons_self _ _)) hv
              have hlen := dfsPush_length_le board p c.1 c.2 (c :: visited)
              simp only [List.length_append, List.length_reverse, List.length_cons] at hm ⊢
              omega

theorem bfsAux_isSome (board : Board) (p : Char) :
    ∀ (fuel : Nat) (queue : List (Nat × Nat × Nat)) (visited : List (Nat × Nat)),
    (∀ e ∈ queue, e.1 < board.length ∧ e.2.1 < board.length) →
    7 * unvisitedCount board.length visited + queue.length < fuel →
    (bfsAux board p fuel queue visited).isSome = true := by
  intro fuel
  induction fuel with
  | zero => intro queue visited _ hm; omega
  | succ f ih =>
    intro queue visited hq hm
    cases queue with
    | nil => simp [bfsAux]
    | cons e rest =>
      simp only [bfsAux]
      by_cases hv : (e.1, e.2.1) ∈ visited
      · rw [if_pos hv]
        apply ih rest visited (fun x hx => hq x (List.mem_cons_of_mem _ hx))
        simp only [List.length_cons] at hm
        omega
      · rw [if_neg hv]
        by_cases h1 : p = 'X' ∧ e.2.1 = board.length - 1
        · rw [if_pos h1]; rfl
        · rw [if_neg h1]
          by_cases h2 : p = 'O' ∧ e.1 = board.length - 1
          · rw [if_pos h2]; rfl
          · rw [if_neg h2]
            apply ih
            · intro x hx
              rcases List.mem_append.mp hx with h | h
              · exact hq x (List.mem_cons_of_mem _ h)
              · have := mem_bfsPush h
                have hb := mem_neighbors_lt this.1
                exact ⟨hb.1, hb.2⟩
            · have hu := unvisited_cons_succ_le (hq e (List.mem_cons_self _ _)) hv
              have hlen := bfsPush_length_le board p e.1 e.2.1 e.2.2 ((e.1, e.2.1) :: visited)
              simp only [List.length_append, List.length_cons] at hm ⊢
              omega

theorem mem_bfsSeeds_lt {board : Board} {p : Char} {e : Nat × Nat × Nat}
    (h : e ∈ bfsSeeds board p) : e.1 < board.length ∧ e.2.1 < board.length := by
  unfold bfsSeeds at h
  split at h
  · obtain ⟨i, hi, hif⟩ := List.mem_filterMap.mp h
    have hi' := List.mem_range.mp hi
    split at hif
    · cases Option.some.inj hif
      exact ⟨hi', show 0 < board.length by omega⟩
    · exact absurd hif (by simp)
  · obtain ⟨j, hj, hif⟩ := List.mem_filterMap.mp h
    have hj' := List.mem_range.mp hj
    split at hif
    · cases Option.some.inj hif
      exact ⟨show 0 < board.length by omega, hj'⟩
    · exact absurd hif (by simp)

theorem mem_dfsSeeds_lt {board : Board} {p : Char} {c : Nat × Nat}
    (h : c ∈ dfsSeeds board p) : c.1 < board.length ∧ c.2 < board.length := by
  unfold dfsSeeds at h
  split at h
  · obtain ⟨i, hi, hif⟩ := List.mem_filterMap.mp h
    have hi' := List.mem_range.mp hi
    split at hif
    · cases Option.some.inj hif
      exact ⟨hi', show 0 < board.length by omega⟩
    · exact absurd hif (by simp)
  · obtain ⟨j, hj, hif⟩ := List.mem_filterMap.mp h
    have hj' := List.mem_range.mp hj
    split at hif
    · cases Option.some.inj hif
      exact ⟨show 0 < board.length by omega, hj'⟩
    · exact absurd hif (by simp)

theorem rowMajorCells_length (n : Nat) : (rowMajorCells n).length = n * n := by
  unfold rowMajorCells
  rw [List.length_flatMap]
  have key : ∀ m : Nat, List.map (List.length ∘ fun r => List.map (fun c => (r, c))
      (List.range n)) (List.range m) = List.replicate m n := by
    intro m
    induction m with
    | zero => rfl
    | succ k ih =>
      rw [List.range_succ, List.map_append, ih, List.replicate_succ']
      simp
  rw [key n, List.sum_replicate, smul_eq_mul]

theorem unvisitedCount_nil (n : Nat) : unvisitedCount n [] = n * n := by
  unfold unvisitedCount
  rw [List.filter_eq_self.mpr (fun a _ => by simp), rowMajorCells_length]

theorem bfsSeeds_length_le (board : Board) (p : Char) :
    (bfsSeeds board p).length ≤ board.length := by
  unfold bfsSeeds
  split <;>
    exact le_trans (List.length_filterMap_le _ _) (by rw [List.length_range])

theorem dfsSeeds_length_le (board : Board) (p : Char) :
    (dfsSeeds board p).length ≤ board.length := by
  unfold dfsSeeds
  split <;>
    exact le_trans (List.length_filterMap_le _ _) (by rw [List.length_range])

theorem check_win_defined (board : Board) (p : Char) :
    (dfsAux board p (searchFuel board) (dfsSeeds board p).reverse []).isSome = true := by
  apply dfsAux_isSome
  · intro c hc
    exact mem_dfsSeeds_lt (List.mem_reverse.mp hc)
  · rw [unvisitedCount_nil, List.length_reverse]
    have := dfsSeeds_length_le board p
    unfold searchFuel
    have h7 : 7 * board.length * board.length
        = 7 * (board.length * board.length) := by ring
    omega

theorem spl_defined (board : Board) (p : Char) :
    (bfsAux board p (searchFuel board) (bfsSeeds board p) []).isSome = true := by
  apply bfsAux_isSome
  · intro e he
    exact mem_bfsSeeds_lt he
  · rw [unvisitedCount_nil]
    have := bfsSeeds_length_le board p
    unfold searchFuel
    have h7 : 7 * board.length * board.length
        = 7 * (board.length * board.length) := by ring
    omega

/-- Claim C9: both search loops terminate: the DFS of check_win and the BFS of
shortest_path_length, started as the source starts them, never exhaust the
searchFuel bound (each cell is processed at most once thanks to the visited
set, so the number of loop iterations is bounded by a constant multiple of the
cell count). -/
theorem searches_terminate (board : Board) (p : Char) :
    (dfsAux board p (searchFuel board) (dfsSeeds board p).reverse []).isSome = true ∧
    (bfsAux board p (searchFuel board) (bfsSeeds board p) []).isSome = true :=
  ⟨check_win_defined board p, spl_defined board p⟩

/-! Reachability specification shared by the two searches. -/

/-- Seed predicate of the searches: the start-edge cells pushed initially
(for 'X', column-0 cells holding 'X'; otherwise row-0 cells holding 'O'). -/
def SeedCell (board : Board) (player : Char) (c : Nat × Nat) : Prop :=
  if player = 'X' then c.1 < board.length ∧ c.2 = 0 ∧ cellAt board c.1 0 = 'X'
  else c.1 = 0 ∧ c.2 < board.length ∧ cellAt board 0 c.2 = 'O'

/-- Target predicate: the early-return conditions of both loops. -/
def TargetCell (board : Board) (player : Char) (c : Nat × Nat) : Prop :=
  (player = 'X' ∧ c.2 = board.length - 1) ∨ (player = 'O' ∧ c.1 = board.length - 1)

/-- Neighbors of a cell that hold the player's stone. -/
def pNbrs (board : Board) (player : Char) (c : Nat × Nat) : List (Nat × Nat) :=
  (neighbors board.length c.1 c.2).filter
    (fun e => decide (cellAt board e.1 e.2 = player))

/-- Reachability from the seed cells along the player's stones, the
specification that both search loops compute. -/
inductive Reach (board : Board) (player : Char) : Nat × Nat → Prop where
  | seed : ∀ c, SeedCell board player c → Reach board player c
  | step : ∀ c c', Reach board player c → c' ∈ pNbrs board player c →
      Reach board player c'

theorem mem_dfsSeeds_iff {board : Board} {p : Char} {c : Nat × Nat} :
    c ∈ dfsSeeds board p ↔ SeedCell board p c := by
  unfold dfsSeeds SeedCell
  by_cases hp : p = 'X'
  · rw [if_pos hp, if_pos hp]
    constructor
    · intro h
      obtain ⟨i, hi, hif⟩ := List.mem_filterMap.mp h
      split at hif
      · rename_i hcell
        cases Option.some.inj hif
        exact ⟨List.mem_range.mp hi, rfl, hcell⟩
      · exact absurd hif (by simp)
    · intro ⟨h1, h2, h3⟩
      apply List.mem_filterMap.mpr
      refine ⟨c.1, List.mem_range.mpr h1, ?_⟩
      have hc : ((c.1 : Nat), (0 : Nat)) = c := Prod.ext rfl h2.symm
      rw [if_pos h3, hc]
  · rw [if_neg hp, if_neg hp]
    constructor
    · intro h
      obtain ⟨j, hj, hif⟩ := List.mem_filterMap.mp h
      split at hif
      · rename_i hcell
        cases Option.some.inj hif
        exact ⟨rfl, List.mem_range.mp hj, hcell⟩
      · exact absurd hif (by simp)
    · intro ⟨h1, h2, h3⟩
      apply List.mem_filterMap.mpr
      refine ⟨c.2, List.mem_range.mpr h2, ?_⟩
      have hc : ((0 : Nat), (c.2 : Nat)) = c := Prod.ext h1.symm rfl
      rw [if_pos h3, hc]

theorem mem_bfsSeeds_iff {board : Board} {p : Char} {e : Nat × Nat × Nat} :
    e ∈ bfsSeeds board p ↔ SeedCell board p (e.1, e.2.1) ∧ e.2.2 = 0 := by
  unfold bfsSeeds SeedCell
  by_cases hp : p = 'X'
  · rw [if_pos hp, if_pos hp]
    constructor
    · intro h
      obtain ⟨i, hi, hif⟩ := List.mem_filterMap.mp h
      split at hif
      · rename_i hcell
        cases Option.some.inj hif
        exact ⟨⟨List.mem_range.mp hi, rfl, hcell⟩, rfl⟩
      · exact absurd hif (by simp)
    · intro ⟨⟨h1, h2, h3⟩, h4⟩
      apply List.mem_filterMap.mpr
      refine ⟨e.1, List.mem_range.mpr h1, ?_⟩
      have hc : ((e.1 : Nat), (0 : Nat), (0 : Nat)) = e :=
        Prod.ext rfl (Prod.ext h2.symm h4.symm)
      rw [if_pos h3, hc]
  · rw [if_neg hp, if_neg hp]
    constructor
    · intro h
      obtain ⟨j, hj, hif⟩ := List.mem_filterMap.mp h
      split at hif
      · rename_i hcell
        cases Option.some.inj hif
        exact ⟨⟨rfl, List.mem_range.mp hj, hcell⟩, rfl⟩
      · exact absurd hif (by simp)
    · intro ⟨⟨h1, h2, h3⟩, h4⟩
      apply List.mem_filterMap.mpr
      refine ⟨e.2.1, List.mem_range.mpr h2, ?_⟩
      have hc : ((0 : Nat), (e.2.1 : Nat), (0 : Nat)) = e :=
        Prod.ext h1.symm (Prod.ext rfl h4.symm)
      rw [if_pos h3, hc]

theorem reach_lt {board : Board} {p : Char} {c : Nat × Nat}
    (h : Reach board p c) : c.1 < board.length ∧ c.2 < board.length := by
  induction h with
  | seed c hs =>
    unfold SeedCell at hs
    split at hs
    · exact ⟨hs.1, by omega⟩
    · exact ⟨by omega, hs.2.1⟩
  | step c c' hr hmem ih =>
    exact mem_neighbors_lt (List.mem_filter.mp hmem).1

theorem reach_mem_closed {board : Board} {p : Char} {V : List (Nat × Nat)}
    (hseed : ∀ c, SeedCell board p c → c ∈ V)
    (hcl : ∀ v ∈ V, ∀ e ∈ pNbrs board p v, e ∈ V) :
    ∀ c, Reach board p c → c ∈ V := by
  intro c h
  induction h with
  | seed c hs => exact hseed c hs
  | step c c' hr hmem ih => exact hcl c ih c' hmem

theorem dfsPush_mem_of {board : Board} {p : Char} {c e : Nat × Nat}
    {v : List (Nat × Nat)} (h : e ∈ pNbrs board p c) (hnv : e ∉ v) :
    e ∈ dfsPush board p c.1 c.2 v := by
  unfold dfsPush
  unfold pNbrs at h
  have hm := List.mem_filter.mp h
  exact List.mem_filter.mpr
    ⟨hm.1, decide_eq_true ⟨of_decide_eq_true hm.2, hnv⟩⟩

theorem dfsAux_true_reach (board : Board) (p : Char) :
    ∀ (fuel : Nat) (stack visited : List (Nat × Nat)),
    (∀ c ∈ stack, Reach board p c) →
    dfsAux board p fuel stack visited = some true →
    ∃ c, Reach board p c ∧ TargetCell board p c := by
  intro fuel
  induction fuel with
  | zero => intro stack visited _ h; simp [dfsAux] at h
  | succ f ih =>
    intro stack visited hst h
    cases stack with
    | nil => simp [dfsAux] at h
    | cons c rest =>
      simp only [dfsAux] at h
      by_cases hv : c ∈ visited
      · rw [if_pos hv] at h
        exact ih rest visited (fun e he => hst e (List.mem_cons_of_mem _ he)) h
      · rw [if_neg hv] at h
        by_cases h1 : p = 'X' ∧ c.2 = board.length - 1
        · exact ⟨c, hst c (List.mem_cons_self _ _), Or.inl h1⟩
        · rw [if_neg h1] at h
          by_cases h2 : p = 'O' ∧ c.1 = board.length - 1
          · exact ⟨c, hst c (List.mem_cons_self _ _), Or.inr h2⟩
          · rw [if_neg h2] at h
            refine ih _ _ ?_ h
            intro e he
            rcases List.mem_append.mp he with hh | hh
            · have hp := mem_dfsPush (List.mem_reverse.mp hh)
              exact Reach.step c e (hst c (List.mem_cons_self _ _))
                (List.mem_filter.mpr ⟨hp.1, decide_eq_true hp.2.1⟩)
            · exact hst e (List.mem_cons_of_mem _ hh)

theorem dfsAux_ne_false (board : Board) (p : Char) :
    ∀ (fuel : Nat) (stack visited : List (Nat × Nat)),
    (∀ s, SeedCell board p s → s ∈ visited ∨ s ∈ stack) →
    (∀ v ∈ visited, ¬TargetCell board p v) →
    (∀ v ∈ visited, ∀ e ∈ pNbrs board p v, e ∈ visited ∨ e ∈ stack) →
    (∃ c, Reach board p c ∧ TargetCell board p c) →
    dfsAux board p fuel stack visited ≠ some false := by
  intro fuel
  induction fuel with
  | zero => intro stack visited _ _ _ _; simp [dfsAux]
  | succ f ih =>
    intro stack visited hseed hvt hcl hex
    cases stack with
    | nil =>
      intro _
      obtain ⟨c, hrc, htc⟩ := hex
      have hmem : c ∈ visited :=
        reach_mem_closed
          (fun s hs => (hseed s hs).resolve_right (by simp))
          (fun v hv e he => (hcl v hv e he).resolve_right (by simp))
          c hrc
      exact hvt c hmem htc
    | cons c rest =>
      simp only [dfsAux]
      by_cases hv : c ∈ visited
      · rw [if_pos hv]
        refine ih rest visited ?_ hvt ?_ hex
        · intro s hs
          rcases hseed s hs with h | h
          · exact Or.inl h
          · rcases List.mem_cons.mp h with h | h
            · exact Or.inl (h ▸ hv)
            · exact Or.inr h
        · intro v hvv e he
          rcases hcl v hvv e he with h | h
          · exact Or.inl h
          · rcases List.mem_cons.mp h with h | h
            · exact Or.inl (h ▸ hv)
            · exact Or.inr h
      · rw [if_neg hv]
        by_cases h1 : p = 'X' ∧ c.2 = board.length - 1
        · rw [if_pos h1]; simp
        · rw [if_neg h1]
          by_cases h2 : p = 'O' ∧ c.1 = board.length - 1
          · rw [if_pos h2]; simp
          · rw [if_neg h2]
            refine ih _ _ ?_ ?_ ?_ hex
            · intro s hs
              rcases hseed s hs with h | h
              · exact Or.inl (List.mem_cons_of_mem _ h)
              · rcases List.mem_cons.mp h with h | h
                · exact Or.inl (by rw [h]; exact List.mem_cons_self _ _)
                · exact Or.inr (List.mem_append.mpr (Or.inr h))
            · intro v hvv
              rcases List.mem_cons.mp hvv with h | h
              · subst h
                intro ht
                rcases ht with hx | ho
                · exact h1 hx
                · exact h2 ho
              · exact hvt v h
            · intro v hvv e he
              rcases List.mem_cons.mp hvv with h | h
              · subst h
                by_cases hev : e ∈ v :: visited
                · exact Or.inl hev
                · refine Or.inr (List.mem_append.mpr (Or.inl ?_))
                  exact List.mem_reverse.mpr (dfsPush_mem_of he hev)
              · rcases hcl v h e he with hh | hh
                · exact Or.inl (List.mem_cons_of_mem _ hh)
                · rcases List.mem_cons.mp hh with hh | hh
                  · exact Or.inl (by rw [hh]; exact List.mem_cons_self _ _)
                  · exact Or.inr (List.mem_append.mpr (Or.inr hh))

theorem check_win_true_iff (board : Board) (p : Char) :
    check_win board p = true ↔ ∃ c, Reach board p c ∧ TargetCell board p c := by
  obtain ⟨b, hb⟩ := Option.isSome_iff_exists.mp (check_win_defined board p)
  unfold check_win
  rw [hb]
  cases b with
  | true =>
    simp only [Option.getD_some]
    constructor
    · intro _
      refine dfsAux_true_reach board p (searchFuel board)
        (dfsSeeds board p).reverse [] ?_ hb
      intro c hc
      exact Reach.seed c (mem_dfsSeeds_iff.mp (List.mem_reverse.mp hc))
    · intro _; trivial
  | false =>
    simp only [Option.getD_some]
    constructor
    · intro h; exact absurd h (by decide)
    · intro hex
      exfalso
      refine dfsAux_ne_false board p (searchFuel board)
        (dfsSeeds board p).reverse [] ?_ ?_ ?_ hex hb
      · intro s hs
        exact Or.inr (List.mem_reverse.mpr (mem_dfsSeeds_iff.mpr hs))
      · intro v hv
        exact absurd hv (by simp)
      · intro v hv
        exact absurd hv (by simp)

theorem bfsPush_mem_of {board : Board} {p : Char} {c e : Nat × Nat} {dist : Nat}
    {v : List (Nat × Nat)} (h : e ∈ pNbrs board p c) (hnv : e ∉ v) :
    (e.1, e.2, dist + 1) ∈ bfsPush board p c.1 c.2 dist v := by
  unfold pNbrs at h
  have hm := List.mem_filter.mp h
  have hcell : cellAt board e.1 e.2 = p := of_decide_eq_true hm.2
  have hnb := hm.1
  unfold neighbors at hnb
  obtain ⟨dd, hdd, hif⟩ := List.mem_filterMap.mp hnb
  simp only at hif
  split at hif
  · rename_i hcond
    cases Option.some.inj hif
    unfold bfsPush
    apply List.mem_filterMap.mpr
    refine ⟨dd, hdd, ?_⟩
    simp only
    rw [if_pos ⟨hcond.1, hcond.2.1, hcond.2.2.1, hcond.2.2.2, hcell, hnv⟩]
  · exact absurd hif (by simp)

theorem visited_length_le {board : Board} {visited : List (Nat × Nat)}
    (hnd : visited.Nodup)
    (hvr : ∀ v ∈ visited, v.1 < board.length ∧ v.2 < board.length) :
    visited.length ≤ board.length * board.length := by
  have hsub : visited ⊆ rowMajorCells board.length :=
    fun v hv => mem_rowMajorCells.mpr (hvr v hv)
  have := (List.subperm_of_subset hnd hsub).length_le
  rwa [rowMajorCells_length] at this

theorem bfsAux_some_classify (board : Board) (p : Char) :
    ∀ (fuel : Nat) (queue : List (Nat × Nat × Nat)) (visited : List (Nat × Nat)),
    (∀ e ∈ queue, Reach board p (e.1, e.2.1) ∧ e.2.2 ≤ visited.length) →
    visited.Nodup →
    (∀ v ∈ visited, v.1 < board.length ∧ v.2 < board.length) →
    ∀ d, bfsAux board p fuel queue visited = some d →
    d = 99 ∨ (d ≤ board.length * board.length
      ∧ ∃ c, Reach board p c ∧ TargetCell board p c) := by
  intro fuel
  induction fuel with
  | zero => intro queue visited _ _ _ d h; simp [bfsAux] at h
  | succ f ih =>
    intro queue visited hq hnd hvr d h
    cases queue with
    | nil =>
      simp only [bfsAux] at h
      exact Or.inl (Option.some.inj h).symm
    | cons e rest =>
      simp only [bfsAux] at h
      by_cases hv : (e.1, e.2.1) ∈ visited
      · rw [if_pos hv] at h
        exact ih rest visited (fun x hx => hq x (List.mem_cons_of_mem _ hx)) hnd hvr d h
      · rw [if_neg hv] at h
        have he := hq e (List.mem_cons_self _ _)
        by_cases h1 : p = 'X' ∧ e.2.1 = board.length - 1
        · rw [if_pos h1] at h
          have hd := Option.some.inj h
          right
          have hvlen := visited_length_le hnd hvr
          exact ⟨by omega, (e.1, e.2.1), he.1, Or.inl h1⟩
        · rw [if_neg h1] at h
          by_cases h2 : p = 'O' ∧ e.1 = board.length - 1
          · rw [if_pos h2] at h
            have hd := Option.some.inj h
            right
            have hvlen := visited_length_le hnd hvr
            exact ⟨by omega, (e.1, e.2.1), he.1, Or.inr h2⟩
          · rw [if_neg h2] at h
            refine ih _ _ ?_ ?_ ?_ d h
            · intro x hx
              rcases List.mem_append.mp hx with hh | hh
              · have hx' := hq x (List.mem_cons_of_mem _ hh)
                exact ⟨hx'.1, by simp only [List.length_cons]; omega⟩
              · have hp := mem_bfsPush hh
                refine ⟨Reach.step (e.1, e.2.1) (x.1, x.2.1) he.1
                  (List.mem_filter.mpr ⟨hp.1, decide_eq_true hp.2.1⟩), ?_⟩
                simp only [List.length_cons]
                omega
            · exact List.nodup_cons.mpr ⟨hv, hnd⟩
            · intro v hvv
              rcases List.mem_cons.mp hvv with hh | hh
              · rw [hh]
                exact reach_lt he.1
              · exact hvr v hh

theorem bfsAux_ne_99 (board : Board) (p : Char)
    (hN : board.length * board.length < 99) :
    ∀ (fuel : Nat) (queue : List (Nat × Nat × Nat)) (visited : List (Nat × Nat)),
    (∀ e ∈ queue, e.2.2 ≤ visited.length) →
    visited.Nodup →
    (∀ v ∈ visited, v.1 < board.length ∧ v.2 < board.length) →
    (∀ e ∈ queue, e.1 < board.length ∧ e.2.1 < board.length) →
    (∀ s, SeedCell board p s → s ∈ visited ∨ ∃ e ∈ queue, (e.1, e.2.1) = s) →
    (∀ v ∈ visited, ¬TargetCell board p v) →
    (∀ v ∈ visited, ∀ c ∈ pNbrs board p v,
      c ∈ visited ∨ ∃ e ∈ queue, (e.1, e.2.1) = c) →
    (∃ c, Reach board p c ∧ TargetCell board p c) →
    bfsAux board p fuel queue visited ≠ some 99 := by
  intro fuel
  induction fuel with
  | zero => intro queue visited _ _ _ _ _ _ _ _; simp [bfsAux]
  | succ f ih =>
    intro queue visited hqd hnd hvr hqr hseed hvt hcl hex
    cases queue with
    | nil =>
      intro _
      obtain ⟨c, hrc, htc⟩ := hex
      have hmem : c ∈ visited :=
        reach_mem_closed
          (fun s hs => by
            rcases hseed s hs with h | ⟨e, he, _⟩
            · exact h
            · exact absurd he (by simp))
          (fun v hv e he => by
            rcases hcl v hv e he with h | ⟨x, hx, _⟩
            · exact h
            · exact absurd hx (by simp))
          c hrc
      exact hvt c hmem htc
    | cons e rest =>
      simp only [bfsAux]
      by_cases hv : (e.1, e.2.1) ∈ visited
      · rw [if_pos hv]
        refine ih rest visited
          (fun x hx => hqd x (List.mem_cons_of_mem _ hx)) hnd hvr
          (fun x hx => hqr x (List.mem_cons_of_mem _ hx)) ?_ hvt ?_ hex
        · intro s hs
          rcases hseed s hs with h | ⟨x, hx, hxe⟩
          · exact Or.inl h
          · rcases List.mem_cons.mp hx with hh | hh
            · subst hh
              exact Or.inl (hxe ▸ hv)
            · exact Or.inr ⟨x, hh, hxe⟩
        · intro v hvv c hc
          rcases hcl v hvv c hc with h | ⟨x, hx, hxe⟩
          · exact Or.inl h
          · rcases List.mem_cons.mp hx with hh | hh
            · subst hh
              exact Or.inl (hxe ▸ hv)
            · exact Or.inr ⟨x, hh, hxe⟩
      · rw [if_neg hv]
        have hed := hqd e (List.mem_cons_self _ _)
        have her := hqr e (List.mem_cons_self _ _)
        have hvlen := visited_length_le hnd hvr
        by_cases h1 : p = 'X' ∧ e.2.1 = board.length - 1
        · rw [if_pos h1]
          intro hc
          have := Option.some.inj hc
          omega
        · rw [if_neg h1]
          by_cases h2 : p = 'O' ∧ e.1 = board.length - 1
          · rw [if_pos h2]
            intro hc
            have := Option.some.inj hc
            omega
          · rw [if_neg h2]
            refine ih _ _ ?_ (List.nodup_cons.mpr ⟨hv, hnd⟩) ?_ ?_ ?_ ?_ ?_ hex
            · intro x hx
              rcases List.mem_append.mp hx with hh | hh
              · have := hqd x (List.mem_cons_of_mem _ hh)
                simp only [List.length_cons]
                omega
              · have hp := mem_bfsPush hh
                simp only [List.length_cons]
                omega
            · intro v hvv
              rcases List.mem_cons.mp hvv with hh | hh
              · rw [hh]; exact her
              · exact hvr v hh
            · intro x hx
              rcases List.mem_append.mp hx with hh | hh
              · exact hqr x (List.mem_cons_of_mem _ hh)
              · have hp := mem_bfsPush hh
                exact mem_neighbors_lt hp.1
            · intro s hs
              rcases hseed s hs with h | ⟨x, hx, hxe⟩
              · exact Or.inl (List.mem_cons_of_mem _ h)
              · rcases List.mem_cons.mp hx with hh | hh
                · subst hh
                  exact Or.inl (hxe ▸ List.mem_cons_self _ _)
                · exact Or.inr ⟨x, List.mem_append.mpr (Or.inl hh), hxe⟩
            · intro v hvv
              rcases List.mem_cons.mp hvv with hh | hh
              · subst hh
                intro ht
                rcases ht with hx | ho
                · exact h1 hx
                · exact h2 ho
              · exact hvt v hh
            · intro v hvv c hc
              rcases List.mem_cons.mp hvv with hh | hh
              · subst hh
                by_cases hcv : c ∈ (e.1, e.2.1) :: visited
                · exact Or.inl hcv
                · refine Or.inr ⟨(c.1, c.2, e.2.2 + 1),
                    List.mem_append.mpr (Or.inr (bfsPush_mem_of hc hcv)), ?_⟩
                  exact Prod.ext rfl rfl
              · rcases hcl v hh c hc with hh2 | ⟨x, hx, hxe⟩
                · exact Or.inl (List.mem_cons_of_mem _ hh2)
                · rcases List.mem_cons.mp hx with hh3 | hh3
                  · subst hh3
                    exact Or.inl (hxe ▸ List.mem_cons_self _ _)
                  · exact Or.inr ⟨x, List.mem_append.mpr (Or.inl hh3), hxe⟩

theorem spl_99_iff (board : Board) (p : Char)
    (hN : board.length * board.length < 99) :
    shortest_path_length board p = 99
      ↔ ¬∃ c, Reach board p c ∧ TargetCell board p c := by
  obtain ⟨d, hd⟩ := Option.isSome_iff_exists.mp (spl_defined board p)
  unfold shortest_path_length
  rw [hd]
  simp only [Option.getD_some]
  have hqinv : ∀ e ∈ bfsSeeds board p,
      Reach board p (e.1, e.2.1) ∧ e.2.2 ≤ ([] : List (Nat × Nat)).length := by
    intro e he
    have := mem_bfsSeeds_iff.mp he
    exact ⟨Reach.seed _ this.1, by simp [this.2]⟩
  constructor
  · intro h99 hex
    subst h99
    refine bfsAux_ne_99 board p hN (searchFuel board) (bfsSeeds board p) []
      ?_ (by simp) ?_ ?_ ?_ ?_ ?_ hex hd
    · intro e he; exact (hqinv e he).2
    · intro v hv; exact absurd hv (by simp)
    · intro e he; exact mem_bfsSeeds_lt he
    · intro s hs
      refine Or.inr ⟨(s.1, s.2, 0), ?_, Prod.ext rfl rfl⟩
      apply mem_bfsSeeds_iff.mpr
      constructor
      · rw [show ((s.1, s.2, (0:Nat)).1, (s.1, s.2, (0:Nat)).2.1) = s from Prod.ext rfl rfl]
        exact hs
      · rfl
    · intro v hv; exact absurd hv (by simp)
    · intro v hv; exact absurd hv (by simp)
  · intro hnex
    rcases bfsAux_some_classify board p (searchFuel board) (bfsSeeds board p) []
        hqinv (by simp) (fun v hv => absurd hv (by simp)) d hd with h | h
    · exact h
    · exact absurd h.2 hnex

/-- Claim C10: on any 5-by-5 board and any player, the exact DFS win test and
the BFS heuristic distance agree on connectivity: check_win returns true
exactly when shortest_path_length returns a value other than the sentinel
99. -/
theorem check_win_iff_spl_ne_99 (board : Board) (p : Char)
    (hb : board.length = 5) (hrows : ∀ row ∈ board, row.length = 5) :
    (check_win board p = true ↔ shortest_path_length board p ≠ 99) := by
  have hN : board.length * board.length < 99 := by rw [hb]; decide
  rw [check_win_true_iff, Ne, spl_99_iff board p hN, not_not]

/-- Witness for check_win_iff_spl_ne_99 at a concrete board. -/
theorem check_win_iff_spl_ne_99_witness :
    (check_win (emptyBoard 5) 'X' = true
      ↔ shortest_path_length (emptyBoard 5) 'X' ≠ 99) :=
  check_win_iff_spl_ne_99 (emptyBoard 5) 'X' (by decide)
    (by intro row hrow; simp [emptyBoard] at hrow; rw [hrow]; decide)

theorem getD_range_map {α : Type} (f : Nat → α) (n x : Nat) (d : α) :
    ((List.range n).map f).getD x d = if x < n then f x else d := by
  rw [List.getD_eq_getElem?_getD, List.getElem?_map]
  by_cases hx : x < n
  · rw [List.getElem?_range hx, if_pos hx]
    rfl
  · rw [if_neg hx, List.getElem?_eq_none (by simpa using Nat.le_of_not_lt hx)]
    rfl

/-- Board whose row r is all 'X' and every other cell is '.'. -/
def rowBoard (n r : Nat) : Board :=
  (List.range n).map
    (fun i => if i = r then List.replicate n 'X' else List.replicate n '.')

theorem rowBoard_length (n r : Nat) : (rowBoard n r).length = n := by
  simp [rowBoard]

theorem cellAt_rowBoard {n r : Nat} (hr : r < n) (x y : Nat) :
    cellAt (rowBoard n r) x y = 'X' ↔ (x = r ∧ y < n) := by
  unfold cellAt rowBoard
  rw [getD_range_map]
  by_cases hx : x < n
  · rw [if_pos hx]
    by_cases hxr : x = r
    · rw [if_pos hxr, getD_replicate]
      by_cases hy : y < n
      · rw [if_pos hy]
        simp [hxr, hy]
      · rw [if_neg hy]
        constructor
        · intro hq; exact absurd hq (by decide)
        · intro ⟨_, hy2⟩; exact absurd hy2 hy
    · rw [if_neg hxr, getD_replicate]
      by_cases hy : y < n
      · rw [if_pos hy]
        constructor
        · intro hq; exact absurd hq (by decide)
        · intro ⟨hxr2, _⟩; exact absurd hxr2 hxr
      · rw [if_neg hy]
        constructor
        · intro hq; exact absurd hq (by decide)
        · intro ⟨_, hy2⟩; exact absurd hy2 hy
  · rw [if_neg hx]
    constructor
    · intro hq
      rw [show ([] : List Char).getD y '?' = '?' from by simp] at hq
      exact absurd hq (by decide)
    · intro ⟨hxr, _⟩; exact absurd (hxr ▸ hr) hx

theorem filterMap_range_single {α : Type} (f : Nat → Option α) (n r : Nat) (a : α)
    (hr : r < n) (hfr : f r = some a) (hother : ∀ i, i ≠ r → f i = none) :
    (List.range n).filterMap f = [a] := by
  induction n with
  | zero => omega
  | succ m ih =>
    rw [List.range_succ, List.filterMap_append]
    by_cases hm : r = m
    · subst hm
      have hpre : (List.range r).filterMap f = [] :=
        List.filterMap_eq_nil_iff.mpr
          (fun i hi => hother i (by have := List.mem_range.mp hi; omega))
      rw [hpre]
      simp [hfr]
    · have hr' : r < m := by omega
      have hm2 : f m = none := hother m (fun h => hm h.symm)
      rw [ih hr']
      simp [hm2]

theorem bfsSeeds_rowBoard (n r : Nat) (hr : r < n) :
    bfsSeeds (rowBoard n r) 'X' = [(r, 0, 0)] := by
  unfold bfsSeeds
  rw [if_pos rfl, rowBoard_length]
  apply filterMap_range_single _ n r _ hr
  · rw [if_pos ((cellAt_rowBoard hr r 0).mpr ⟨rfl, by omega⟩)]
  · intro i hi
    rw [if_neg]
    intro hcell
    exact hi ((cellAt_rowBoard hr i 0).mp hcell).1

/-- Visited list of the BFS on rowBoard after visiting the first k cells of
row r. -/
def rowVisited (r : Nat) : Nat → List (Nat × Nat)
  | 0 => []
  | k + 1 => (r, k) :: rowVisited r k

theorem mem_rowVisited {r k : Nat} {c : Nat × Nat} :
    c ∈ rowVisited r k ↔ c.1 = r ∧ c.2 < k := by
  induction k with
  | zero => simp [rowVisited]
  | succ m ih =>
    constructor
    · intro h
      rcases List.mem_cons.mp h with h | h
      · rw [h]
        exact ⟨rfl, Nat.lt_succ_self m⟩
      · have := ih.mp h
        exact ⟨this.1, by omega⟩
    · intro ⟨h1, h2⟩
      by_cases hm : c.2 = m
      · apply List.mem_cons.mpr
        left
        rw [← h1, ← hm]
      · exact List.mem_cons.mpr (Or.inr (ih.mpr ⟨h1, by omega⟩))

theorem bfsPush_rowBoard (n r j : Nat) (hr : r < n) (hj1 : j + 1 < n) :
    bfsPush (rowBoard n r) 'X' r j j ((r, j) :: rowVisited r j)
      = [(r, j + 1, j + 1)] := by
  have hlen := rowBoard_length n r
  have hxr0 : ((r : Int) + 0).toNat = r := by omega
  have hyj1 : ((j : Int) + 1).toNat = j + 1 := by omega
  have hc1 : ¬(0 ≤ (r : Int) + -1 ∧ (r : Int) + -1 < (n : Int)
      ∧ 0 ≤ (j : Int) + 0 ∧ (j : Int) + 0 < (n : Int)
      ∧ cellAt (rowBoard n r) ((r : Int) + -1).toNat ((j : Int) + 0).toNat = 'X'
      ∧ (((r : Int) + -1).toNat, ((j : Int) + 0).toNat) ∉ (r, j) :: rowVisited r j) := by
    rintro ⟨ha, -, -, -, hc, -⟩
    rw [cellAt_rowBoard hr] at hc
    obtain ⟨hceq, -⟩ := hc
    omega
  have hc2 : ¬(0 ≤ (r : Int) + -1 ∧ (r : Int) + -1 < (n : Int)
      ∧ 0 ≤ (j : Int) + 1 ∧ (j : Int) + 1 < (n : Int)
      ∧ cellAt (rowBoard n r) ((r : Int) + -1).toNat ((j : Int) + 1).toNat = 'X'
      ∧ (((r : Int) + -1).toNat, ((j : Int) + 1).toNat) ∉ (r, j) :: rowVisited r j) := by
    rintro ⟨ha, -, -, -, hc, -⟩
    rw [cellAt_rowBoard hr] at hc
    obtain ⟨hceq, -⟩ := hc
    omega
  have hc3 : ¬(0 ≤ (r : Int) + 0 ∧ (r : Int) + 0 < (n : Int)
      ∧ 0 ≤ (j : Int) + -1 ∧ (j : Int) + -1 < (n : Int)
      ∧ cellAt (rowBoard n r) ((r : Int) + 0).toNat ((j : Int) + -1).toNat = 'X'
      ∧ (((r : Int) + 0).toNat, ((j : Int) + -1).toNat) ∉ (r, j) :: rowVisited r j) := by
    rintro ⟨-, -, ha, -, -, hne⟩
    have hyy : ((j : Int) + -1).toNat = j - 1 := by omega
    rw [hxr0, hyy] at hne
    refine hne (List.mem_cons.mpr (Or.inr (mem_rowVisited.mpr ⟨rfl, ?_⟩)))
    omega
  have hc4 : (0 ≤ (r : Int) + 0 ∧ (r : Int) + 0 < (n : Int)
      ∧ 0 ≤ (j : Int) + 1 ∧ (j : Int) + 1 < (n : Int)
      ∧ cellAt (rowBoard n r) ((r : Int) + 0).toNat ((j : Int) + 1).toNat = 'X'
      ∧ (((r : Int) + 0).toNat, ((j : Int) + 1).toNat) ∉ (r, j) :: rowVisited r j) := by
    refine ⟨by omega, by omega, by omega, by omega, ?_, ?_⟩
    · rw [hxr0, hyj1, cellAt_rowBoard hr]
      exact ⟨rfl, hj1⟩
    · rw [hxr0, hyj1]
      intro hmem
      rcases List.mem_cons.mp hmem with hh | hh
      · have : j + 1 = j := congrArg Prod.snd hh
        omega
      · have := mem_rowVisited.mp hh
        omega
  have hc5 : ¬(0 ≤ (r : Int) + 1 ∧ (r : Int) + 1 < (n : Int)
      ∧ 0 ≤ (j : Int) + -1 ∧ (j : Int) + -1 < (n : Int)
      ∧ cellAt (rowBoard n r) ((r : Int) + 1).toNat ((j : Int) + -1).toNat = 'X'
      ∧ (((r : Int) + 1).toNat, ((j : Int) + -1).toNat) ∉ (r, j) :: rowVisited r j) := by
    rintro ⟨-, -, -, -, hc, -⟩
    rw [cellAt_rowBoard hr] at hc
    obtain ⟨hceq, -⟩ := hc
    omega
  have hc6 : ¬(0 ≤ (r : Int) + 1 ∧ (r : Int) + 1 < (n : Int)
      ∧ 0 ≤ (j : Int) + 0 ∧ (j : Int) + 0 < (n : Int)
      ∧ cellAt (rowBoard n r) ((r : Int) + 1).toNat ((j : Int) + 0).toNat = 'X'
      ∧ (((r : Int) + 1).toNat, ((j : Int) + 0).toNat) ∉ (r, j) :: rowVisited r j) := by
    rintro ⟨-, -, -, -, hc, -⟩
    rw [cellAt_rowBoard hr] at hc
    obtain ⟨hceq, -⟩ := hc
    omega
  unfold bfsPush
  simp only [rowBoard_length, dirs, List.filterMap_cons, List.filterMap_nil]
  rw [if_neg hc1, if_neg hc2, if_neg hc3, if_pos hc4, if_neg hc5, if_neg hc6]
  simp [hxr0, hyj1]

theorem bfs_row_trace (n r : Nat) (hr : r < n) :
    ∀ (d j fuel : Nat), j + d = n - 1 →
    bfsAux (rowBoard n r) 'X' (fuel + d + 1) [(r, j, j)] (rowVisited r j)
      = some (n - 1) := by
  intro d
  induction d with
  | zero =>
    intro j fuel hj
    simp only [bfsAux]
    rw [if_neg (fun hmem => by have := mem_rowVisited.mp hmem; omega)]
    rw [if_pos ⟨trivial, by rw [rowBoard_length]; omega⟩]
    rw [show j = n - 1 by omega]
  | succ dd ih =>
    intro j fuel hj
    have hj1 : j + 1 < n := by omega
    simp only [bfsAux]
    rw [if_neg (fun hmem => by have := mem_rowVisited.mp hmem; omega)]
    rw [if_neg (fun hcond => by have := hcond.2; rw [rowBoard_length] at this; omega)]
    rw [if_neg (fun hcond => by exact absurd hcond.1 (by decide))]
    rw [bfsPush_rowBoard n r j hr hj1, List.nil_append]
    exact ih (j + 1) fuel (by omega)

theorem reach_rowBoard (n r : Nat) (hr : r < n) :
    ∀ j, j < n → Reach (rowBoard n r) 'X' (r, j) := by
  intro j
  induction j with
  | zero =>
    intro _
    apply Reach.seed
    unfold SeedCell
    rw [if_pos rfl]
    refine ⟨?_, rfl, ?_⟩
    · rw [rowBoard_length]
      exact hr
    · exact (cellAt_rowBoard hr r 0).mpr ⟨rfl, by omega⟩
  | succ k ih =>
    intro hk
    refine Reach.step (r, k) (r, k + 1) (ih (by omega)) ?_
    unfold pNbrs
    apply List.mem_filter.mpr
    constructor
    · rw [rowBoard_length]
      unfold neighbors
      apply List.mem_filterMap.mpr
      refine ⟨(0, 1), by decide, ?_⟩
      simp only
      rw [if_pos ⟨by omega, by omega, by omega, by omega⟩]
      rw [show ((r : Int) + 0).toNat = r by omega,
        show ((k : Int) + 1).toNat = k + 1 by omega]
    · apply decide_eq_true
      exact (cellAt_rowBoard hr r (k + 1)).mpr ⟨rfl, hk⟩

/-- Claim C8: on the n-by-n board whose row r is entirely 'X' and every other
cell empty, player 'X' is connected and its completion distance is exactly
n - 1. -/
theorem xRow_connects (n r : Nat) (hr : r < n) :
    check_win (rowBoard n r) 'X' = true ∧
    shortest_path_length (rowBoard n r) 'X' = n - 1 := by
  constructor
  · rw [check_win_true_iff]
    refine ⟨(r, n - 1), reach_rowBoard n r hr (n - 1) (by omega),
      Or.inl ⟨rfl, ?_⟩⟩
    rw [rowBoard_length]
  · unfold shortest_path_length
    rw [bfsSeeds_rowBoard n r hr]
    have hfuel : searchFuel (rowBoard n r) = (7 * n * n + 1) + (n - 1) + 1 := by
      unfold searchFuel
      rw [rowBoard_length]
      omega
    have htr := bfs_row_trace n r hr (n - 1) 0 (7 * n * n + 1) (by omega)
    rw [show rowVisited r 0 = ([] : List (Nat × Nat)) from rfl] at htr
    rw [hfuel, htr]
    rfl

/-- Witness for xRow_connects at a concrete size and row. -/
theorem xRow_connects_witness :
    check_win (rowBoard 5 2) 'X' = true ∧
    shortest_path_length (rowBoard 5 2) 'X' = 5 - 1 :=
  xRow_connects 5 2 (by decide)
